import Mathlib

/-!
# LED-Matrix display refresh engine: a shallow embedding

An embedding of `src/LED_Matrix.cpp` (a timer-driven row-multiplexed
binary-code-modulation refresh engine for directly wired LED matrices),
with theorems checking the repository's specification against it.

Modelling conventions:
* GPIO pins are `Nat` identifiers; the pin tables (`ROW_PINS`, `COL_PINS`,
  `SR_PINS`) are functions `Nat → Nat` in a configuration record, exactly as
  the code keeps them in global arrays set once by `DirectMatrix::begin`.
* The observable behaviour of a routine is the ordered list of calls it makes
  into the hardware layer (`digitalWrite`, `pinMode`, `Timer1.setPeriod`,
  `Timer1.initialize`, `Timer1.attachInterrupt`), reified as a trace of
  events.  `micros()` profiling (ISR_runtime / ISR_latency) produces no
  hardware calls and is not modelled.
* Machine integers are `Nat` with `% 2 ^ w` at the points where the C types
  truncate: `pwm_shifted` is `uint16_t`, the period table entries are
  `uint32_t`, `pwm` and the `clear` loop counter are `uint8_t`.
* The framebuffer `DirectMatrix_MATRIX` is a function `Nat → Nat` from cell
  index to cell value; stores are `Function.update`.
-/

namespace LEDMatrix

/-- One observable hardware call of the driver. -/
inductive Ev where
  /-- `Timer1.setPeriod(us)` -/
  | setPeriod (us : Nat)
  /-- `pinMode(pin, OUTPUT)` -/
  | pinMode (pin : Nat)
  /-- `digitalWrite(pin, level)`, `true` = HIGH -/
  | write (pin : Nat) (level : Bool)
  /-- `Timer1.initialize(us)` -/
  | initTimer (us : Nat)
  /-- `Timer1.attachInterrupt(DirectMatrix_RefreshPWMLine)` -/
  | attachISR
  deriving DecidableEq, Repr

/-- The global configuration the constructor and `begin` leave behind for the
ISR: sizes, the three pin tables, the `DINV` sentinel of the GPIO library
(`SR_PINS[color] == DINV` means color plane `color` is direct-driven), and the
base timer period passed to `begin`. -/
structure Cfg where
  /-- `DirectMatrix_ARRAY_ROWS` -/
  rows : Nat
  /-- `DirectMatrix_ARRAY_COLS` -/
  cols : Nat
  /-- `DirectMatrix_NUM_COLORS` -/
  colors : Nat
  /-- `DirectMatrix_ROW_PINS` -/
  rowPins : Nat → Nat
  /-- `DirectMatrix_COL_PINS` -/
  colPins : Nat → Nat
  /-- `DirectMatrix_SR_PINS` -/
  srPins : Nat → Nat
  /-- the `DINV` sentinel pin value -/
  dinv : Nat
  /-- `__ISR_freq`, the base period handed to `begin` -/
  freq : Nat

/-- Modelled from the spec: index of the shift-register data pin in the
`SR_PINS` triple (`{DATA, CLK, plane-latch}`); the header defining `DATA` is
not under `src/`. -/
def DATA : Nat := 0

/-- Modelled from the spec: index of the shift-register clock pin in the
`SR_PINS` triple; the header defining `CLK` is not under `src/`. -/
def CLK : Nat := 1

/-- Modelled from the spec: `DirectMatrix_PWM_LEVELS`, the bound at which the
plane mask resets ("if `current_plane_mask ≥ 16`, reset to mask=1, index=0");
the header defining it is not under `src/`. -/
def DirectMatrix_PWM_LEVELS : Nat := 16

/-- The period table `DirectMatrix_ISR_FREQ`, as `begin` fills it
(lines 185–188): `ISR_FREQ[i] = __ISR_freq << i`, stored in `uint32_t`. -/
def DirectMatrix_ISR_FREQ (cfg : Cfg) (i : Nat) : Nat :=
  (cfg.freq <<< i) % 2 ^ 32

/-- `(DirectMatrix_MATRIX[row * COLS + col] & pwm_shifted) ? HIGH : LOW` —
the level driven for one cell during one BCM plane. -/
def cellLit (mat : Nat → Nat) (cols row col mask : Nat) : Bool :=
  decide (mat (row * cols + col) &&& mask ≠ 0)

/-- The body of one iteration of the ISR's color loop (lines 105–132): either
the direct-drive column writes, or the shift-register latch/clock sequence.
`pwmShifted` and `offset` are the loop-carried values of `pwm_shifted`
(truncated to `uint16_t` by the caller) and `col_pin_offset`. -/
def planeEvents (cfg : Cfg) (mat : Nat → Nat) (row color pwmShifted offset : Nat) :
    List Ev :=
  if cfg.srPins color = cfg.dinv then
    (List.range cfg.cols).map fun col =>
      Ev.write (cfg.colPins (col + offset)) (cellLit mat cfg.cols row col pwmShifted)
  else
    Ev.write (cfg.srPins color) false ::
      ((List.range cfg.cols).flatMap fun col =>
        [Ev.write (cfg.srPins CLK) false,
         Ev.write (cfg.srPins DATA) (cellLit mat cfg.cols row col pwmShifted),
         Ev.write (cfg.srPins CLK) true]) ++
      [Ev.write (cfg.srPins color) true]

/-- The ISR's color loop.  At iteration `color` the loop-carried accumulators
hold `pwm_shifted = (pwm << 4*color) mod 2^16` (it starts at `pwm` and is
shifted by 4 each iteration in a `uint16_t`) and
`col_pin_offset = color * COLS` (it starts at 0 and grows by `COLS`). -/
def colEmit (cfg : Cfg) (mat : Nat → Nat) (row pwm : Nat) : List Ev :=
  (List.range cfg.colors).flatMap fun color =>
    planeEvents cfg mat row color ((pwm <<< (4 * color)) % 2 ^ 16) (color * cfg.cols)

/-- The ISR's persistent static state: `row`, `pwm` (the plane mask) and
`isr_freq_offset` (the plane index). -/
structure RState where
  row : Nat
  pwm : Nat
  off : Nat
  deriving DecidableEq, Repr

/-- `oldrow` as the ISR computes it (lines 92–101): `ROWS - 1` when
`row == 0`, else `row - 1`. -/
def oldrowOf (cfg : Cfg) (s : RState) : Nat :=
  if s.row = 0 then cfg.rows - 1 else s.row - 1

/-- The hardware calls of one `DirectMatrix_RefreshPWMLine` invocation, in
program order: the period reprogramming when `row == 0` (line 95), the
previous-row blank (line 103), the color loop (lines 105–132), the row enable
(line 135). -/
def stepEvents (cfg : Cfg) (mat : Nat → Nat) (s : RState) : List Ev :=
  (if s.row = 0 then [Ev.setPeriod (DirectMatrix_ISR_FREQ cfg s.off)] else []) ++
    Ev.write (cfg.rowPins (oldrowOf cfg s)) true ::
      colEmit cfg mat s.row s.pwm ++
      [Ev.write (cfg.rowPins s.row) false]

/-- The ISR's state advance (lines 137–148): `row++`; on wrap `pwm <<= 1`
(a `uint8_t`), `isr_freq_offset++` (a `uint8_t`), and a reset to
`pwm = 1, isr_freq_offset = 0` once `pwm >= DirectMatrix_PWM_LEVELS`.
Reachable `row` values stay below 255, so `row++` never wraps. -/
def advance (rows : Nat) (s : RState) : RState :=
  if s.row + 1 ≥ rows then
    let pwm2 := (s.pwm <<< 1) % 2 ^ 8
    if pwm2 ≥ DirectMatrix_PWM_LEVELS then ⟨0, 1, 0⟩
    else ⟨0, pwm2, (s.off + 1) % 2 ^ 8⟩
  else ⟨s.row + 1, s.pwm, s.off⟩

/-- One full ISR invocation: the emitted hardware calls and the next state. -/
def DirectMatrix_RefreshPWMLine (cfg : Cfg) (mat : Nat → Nat) (s : RState) :
    RState × List Ev :=
  (advance cfg.rows s, stepEvents cfg mat s)

/-- The initial static state: `row = 0`, `pwm = 1`, `isr_freq_offset = 0`
(lines 79–83). -/
def state0 : RState := ⟨0, 1, 0⟩

/-- `n` state advances. -/
def advIter (rows : Nat) : Nat → RState → RState
  | 0, s => s
  | n + 1, s => advIter rows n (advance rows s)

/-- The ISR state after `n` invocations from the initial state. -/
def stateN (rows n : Nat) : RState := advIter rows n state0

/-- The concatenated hardware calls of `n` consecutive ISR invocations
starting from state `s` (the framebuffer held fixed). -/
def runEvents (cfg : Cfg) (mat : Nat → Nat) : RState → Nat → List Ev
  | _, 0 => []
  | s, n + 1 => stepEvents cfg mat s ++ runEvents cfg mat (advance cfg.rows s) n

/-- Selects the `setPeriod` calls of a trace. -/
def periodOf : Ev → Option Nat
  | .setPeriod us => some us
  | _ => none

/-- The row-pin initialization loop of `begin` (lines 191–195): each row pin
`OUTPUT` then driven HIGH. -/
def rowsInit (cfg : Cfg) : List Ev :=
  (List.range cfg.rows).flatMap fun i =>
    [Ev.pinMode (cfg.rowPins i), Ev.write (cfg.rowPins i) true]

/-- The column-pin initialization loop of `begin` (lines 196–200): it runs
`i` from 0 to `_num_cols - 1` — over `cols` pins, not `colors * cols`. -/
def colsInit (cfg : Cfg) : List Ev :=
  (List.range cfg.cols).flatMap fun i =>
    [Ev.pinMode (cfg.colPins i), Ev.write (cfg.colPins i) false]

/-- The shift-register setup loop of `begin` (lines 203–217), including its
pre-clocking of `ROWS + 1` bits of pattern `i & 1`.  The absent-pin check
there compares against the literal 255 (line 205). -/
def srPreclock (cfg : Cfg) : List Ev :=
  (List.range 3).flatMap fun pin =>
    if cfg.srPins pin = 255 then []
    else
      [Ev.pinMode (cfg.srPins pin), Ev.pinMode (cfg.srPins DATA),
       Ev.pinMode (cfg.srPins CLK), Ev.write (cfg.srPins pin) false] ++
        ((List.range (cfg.rows + 1)).flatMap fun i =>
          [Ev.write (cfg.srPins CLK) false,
           Ev.write (cfg.srPins DATA) (decide (i &&& 1 ≠ 0)),
           Ev.write (cfg.srPins CLK) true]) ++
        [Ev.write (cfg.srPins pin) true]

/-- The hardware calls of `DirectMatrix::begin` (lines 175–225), in program
order: row init, column init, shift-register setup, then
`Timer1.initialize(ISR_FREQ[0])` and the interrupt attach. -/
def beginEvents (cfg : Cfg) : List Ev :=
  rowsInit cfg ++ colsInit cfg ++ srPreclock cfg ++
    [Ev.initTimer (DirectMatrix_ISR_FREQ cfg 0), Ev.attachISR]

/-! ## Pin levels over a trace

A pin's driven level: `none` until the trace first writes it (the pin is not
driving), then `some level`. -/

/-- Applies one event to the pin-level map. -/
def applyEv (L : Nat → Option Bool) : Ev → (Nat → Option Bool)
  | .write p b => Function.update L p (some b)
  | _ => L

/-- Applies a trace, left to right. -/
def applyEvs (L : Nat → Option Bool) (evs : List Ev) : Nat → Option Bool :=
  evs.foldl applyEv L

/-- At most one row pin is driven LOW (the enabled level, rows being
common-cathode). -/
def AtMostOneLow (cfg : Cfg) (L : Nat → Option Bool) : Prop :=
  ∀ r1, r1 < cfg.rows → ∀ r2, r2 < cfg.rows →
    L (cfg.rowPins r1) = some false → L (cfg.rowPins r2) = some false → r1 = r2

/-- `AtMostOneLow` holds after every event of the trace, instant by
instant. -/
def PrefOk (cfg : Cfg) : (Nat → Option Bool) → List Ev → Prop
  | _, [] => True
  | L, e :: rest => AtMostOneLow cfg (applyEv L e) ∧ PrefOk cfg (applyEv L e) rest

/-! ## Foreground operations -/

/-- The loop of `DirectMatrix::clear` (lines 231–235).  The counter `i` is a
`uint8_t`, compared (after integer promotion) against `_num_rows * _num_cols`;
`fuel` bounds the number of iterations we unfold, `none` meaning the loop has
not finished within `fuel` iterations. -/
def clearLoop (rows cols : Nat) : Nat → (Nat → Nat) → Nat → Option (Nat → Nat)
  | 0, _, _ => none
  | fuel + 1, fb, i =>
    if i < rows * cols then
      clearLoop rows cols fuel (Function.update fb i 0) ((i + 1) % 2 ^ 8)
    else
      some fb

/-- `DirectMatrix::clear`, started at `i = 0`. -/
def clear (rows cols : Nat) (fb : Nat → Nat) (fuel : Nat) : Option (Nat → Nat) :=
  clearLoop rows cols fuel fb 0

/-- The rotation switch of `PWMDirectMatrix::drawPixel` (lines 253–266) on
the point `(x, y)`: case 1 swaps then `x = 8 - x - 1`; case 2 reflects both;
case 3 swaps then `y = 8 - y - 1`; anything else falls through unchanged. -/
def applyRotation (rotation : Nat) (x y : Int) : Int × Int :=
  match rotation with
  | 1 => (8 - y - 1, x)
  | 2 => (8 - x - 1, 8 - y - 1)
  | 3 => (y, 8 - x - 1)
  | _ => (x, y)

/-- The framebuffer index `drawPixel` stores to (line 268):
`y * _num_cols + x` after rotation. -/
def drawIdx (rotation : Nat) (x y : Int) (cols : Nat) : Nat :=
  ((applyRotation rotation x y).2).toNat * cols + ((applyRotation rotation x y).1).toNat

/-- `PWMDirectMatrix::drawPixel` (lines 248–269): the hard-coded 8×8 bounds
checks (`y` first, then `x`, both `int16_t`), the rotation switch, then the
store `DirectMatrix_MATRIX[y * _num_cols + x] = color`. -/
def drawPixel (cols rotation : Nat) (fb : Nat → Nat) (x y : Int) (color : Nat) :
    Nat → Nat :=
  if y < 0 ∨ 8 ≤ y then fb
  else if x < 0 ∨ 8 ≤ x then fb
  else Function.update fb (drawIdx rotation x y cols) color

/-- One application of the rotation-1 coordinate transform, as a map on
points. -/
def rot1Step (p : Int × Int) : Int × Int := applyRotation 1 p.1 p.2

/-- The cell index the spec's rotation formulas predict for a plot at
`(x, y)` on an 8×8 matrix: "90° = swap then x ← 7−x; 180° = x ← 7−x,
y ← 7−y; 270° = swap then y ← 7−y", stored at cell `y · C + x` with `C = 8`.
Stated from the spec's words, to be compared with `drawIdx`. -/
def specRotIdx (rotation x y : Nat) : Nat :=
  match rotation with
  | 1 => x * 8 + (7 - y)
  | 2 => (7 - y) * 8 + (7 - x)
  | 3 => (7 - x) * 8 + y
  | _ => y * 8 + x

/-! ## A concrete configuration, for witnesses -/

/-- A small concrete configuration: a 2×2 single-color direct-driven matrix
with distinct pins. -/
def cfgW : Cfg where
  rows := 2
  cols := 2
  colors := 1
  rowPins := fun i => i
  colPins := fun i => 10 + i
  srPins := fun _ => 255
  dinv := 255
  freq := 150

/-- A concrete framebuffer: every cell `0x0001`. -/
def matW : Nat → Nat := fun _ => 1

/-- A 1×1 two-color direct-driven configuration: the claim about `begin`
initializing all `colors * cols` column pins needs a second color plane. -/
def cfg9 : Cfg where
  rows := 1
  cols := 1
  colors := 2
  rowPins := fun i => i
  colPins := fun i => 10 + i
  srPins := fun _ => 255
  dinv := 255
  freq := 150

/-! ## State arithmetic -/

lemma advIter_succ' (rows n : Nat) (s : RState) :
    advIter rows (n + 1) s = advance rows (advIter rows n s) := by
  induction n generalizing s with
  | zero => rfl
  | succ n ih => rw [advIter, ih, advIter]

lemma advIter_add (rows m n : Nat) (s : RState) :
    advIter rows (m + n) s = advIter rows n (advIter rows m s) := by
  induction m generalizing s with
  | zero => rw [Nat.zero_add]; rfl
  | succ m ih =>
    rw [Nat.succ_add, advIter, advIter, ih]

lemma advance_no_wrap {rows : Nat} {s : RState} (h : s.row + 1 < rows) :
    advance rows s = ⟨s.row + 1, s.pwm, s.off⟩ := by
  rw [advance, if_neg (by omega)]

lemma advIter_no_wrap (rows : Nat) :
    ∀ (m : Nat) (s : RState), s.row + m < rows →
      advIter rows m s = ⟨s.row + m, s.pwm, s.off⟩ := by
  intro m
  induction m with
  | zero => intro s _; rfl
  | succ m ih =>
    intro s h
    rw [advIter, advance_no_wrap (by omega)]
    rw [ih ⟨s.row + 1, s.pwm, s.off⟩ (show s.row + 1 + m < rows by omega)]
    have : s.row + 1 + m = s.row + (m + 1) := by omega
    rw [this]

/-- Running the ISR for one full pass from the start of a pass wraps the row
counter and advances the plane. -/
lemma advIter_full_pass {rows : Nat} (hR : 0 < rows) (p q : Nat) :
    advIter rows rows ⟨0, p, q⟩ = advance rows ⟨rows - 1, p, q⟩ := by
  obtain ⟨m, rfl⟩ : ∃ m, rows = m + 1 := ⟨rows - 1, by omega⟩
  rw [advIter_succ',
    advIter_no_wrap (m + 1) m ⟨0, p, q⟩ (show 0 + m < m + 1 by omega)]
  simp

/-- The state at the start of pass `q`: row 0, plane mask `2 ^ (q mod 4)`,
plane index `q mod 4`. -/
lemma stateN_pass {rows : Nat} (hR : 0 < rows) (q : Nat) :
    stateN rows (q * rows) = ⟨0, 2 ^ (q % 4), q % 4⟩ := by
  induction q with
  | zero => simp [stateN, advIter, state0]
  | succ q ih =>
    have hrows : (q + 1) * rows = q * rows + rows := by ring
    rw [stateN, hrows, advIter_add, ← stateN, ih, advIter_full_pass hR]
    have h4 : q % 4 = 0 ∨ q % 4 = 1 ∨ q % 4 = 2 ∨ q % 4 = 3 := by omega
    have hwrap : rows - 1 + 1 ≥ rows := by omega
    have hq : (q + 1) % 4 = (q % 4 + 1) % 4 := by omega
    rcases h4 with h | h | h | h <;>
      · rw [advance]
        simp [hwrap, h, hq, DirectMatrix_PWM_LEVELS, Nat.shiftLeft_eq]

lemma stateN_closed {rows : Nat} (hR : 0 < rows) (k : Nat) :
    stateN rows k = ⟨k % rows, 2 ^ (k / rows % 4), k / rows % 4⟩ := by
  have hk : k = (k / rows) * rows + k % rows := by
    rw [Nat.mul_comm]; exact (Nat.div_add_mod k rows).symm
  have hmod : k % rows < rows := Nat.mod_lt _ hR
  conv_lhs => rw [hk]
  rw [stateN, advIter_add, ← stateN, stateN_pass hR]
  have := advIter_no_wrap rows (k % rows) ⟨0, 2 ^ (k / rows % 4), k / rows % 4⟩
    (show 0 + k % rows < rows by omega)
  simpa using this

/-- C4's counterexample input: a 1-row matrix after one invocation has
`pwm = 2` and `isr_freq_offset = 1`, but `1 << (2*1) = 4`. -/
theorem refresh_state_invariant_counterexample :
    ¬ (stateN 1 1).pwm = 1 <<< (2 * (stateN 1 1).off) := by decide

/-- C4 (amended): after every number of ISR invocations the refresh state
satisfies `current_plane_mask = 1 << plane_index`, with `current_row < R`,
`current_plane_mask ∈ {1, 2, 4, 8}` and `plane_index < 4`. -/
theorem refresh_state_invariant_amended (rows : Nat) (hR : 0 < rows) :
    ∀ n : Nat,
      (stateN rows n).pwm = 1 <<< (stateN rows n).off ∧
      (stateN rows n).row < rows ∧
      ((stateN rows n).pwm = 1 ∨ (stateN rows n).pwm = 2 ∨
        (stateN rows n).pwm = 4 ∨ (stateN rows n).pwm = 8) ∧
      (stateN rows n).off < 4 := by
  intro n
  rw [stateN_closed hR]
  have h4 : n / rows % 4 = 0 ∨ n / rows % 4 = 1 ∨ n / rows % 4 = 2 ∨
      n / rows % 4 = 3 := by omega
  refine ⟨?_, Nat.mod_lt _ hR, ?_, show n / rows % 4 < 4 by omega⟩
  · show (2 : Nat) ^ (n / rows % 4) = 1 <<< (n / rows % 4)
    rw [Nat.shiftLeft_eq, Nat.one_mul]
  · show (2 : Nat) ^ (n / rows % 4) = 1 ∨ (2 : Nat) ^ (n / rows % 4) = 2 ∨
      (2 : Nat) ^ (n / rows % 4) = 4 ∨ (2 : Nat) ^ (n / rows % 4) = 8
    rcases h4 with h | h | h | h <;> simp [h]

theorem refresh_state_invariant_witness :
    (stateN 8 33).pwm = 1 <<< (stateN 8 33).off ∧
    (stateN 8 33).row < 8 ∧
    ((stateN 8 33).pwm = 1 ∨ (stateN 8 33).pwm = 2 ∨
      (stateN 8 33).pwm = 4 ∨ (stateN 8 33).pwm = 8) ∧
    (stateN 8 33).off < 4 :=
  refresh_state_invariant_amended 8 (by decide) 33

/-! ## Drawing surface: rotation and bounds -/

lemma drawIdx_eq_specRotIdx :
    ∀ rot : Nat, rot < 4 → ∀ x : Nat, x < 8 → ∀ y : Nat, y < 8 →
      drawIdx rot (x : Int) (y : Int) 8 = specRotIdx rot x y := by decide

lemma drawPixel_in_bounds {x y : Nat} (hx : x < 8) (hy : y < 8)
    (cols rotation : Nat) (fb : Nat → Nat) (w : Nat) :
    drawPixel cols rotation fb (x : Int) (y : Int) w =
      Function.update fb (drawIdx rotation (x : Int) (y : Int) cols) w := by
  rw [drawPixel, if_neg (by omega), if_neg (by omega)]

/-- C6: on an 8×8 matrix, for every rotation r < 4 and in-bounds (x, y),
`drawPixel` stores the word exactly at the index the spec's rotation
formulas predict, so reading that cell back returns the word; and the
rotation-1 coordinate transform applied four times is the identity on
plotted positions. -/
theorem drawPixel_rotation_roundtrip :
    (∀ rot : Nat, rot < 4 → ∀ x : Nat, x < 8 → ∀ y : Nat, y < 8 →
      ∀ (fb : Nat → Nat) (w : Nat),
      drawPixel 8 rot fb (x : Int) (y : Int) w =
        Function.update fb (specRotIdx rot x y) w ∧
      drawPixel 8 rot fb (x : Int) (y : Int) w (specRotIdx rot x y) = w) ∧
    (∀ x : Nat, x < 8 → ∀ y : Nat, y < 8 →
      rot1Step (rot1Step (rot1Step (rot1Step ((x : Int), (y : Int))))) =
        ((x : Int), (y : Int))) := by
  constructor
  · intro rot hrot x hx y hy fb w
    have hidx := drawIdx_eq_specRotIdx rot hrot x hx y hy
    rw [drawPixel_in_bounds hx hy, hidx]
    exact ⟨rfl, Function.update_same _ _ _⟩
  · decide

/-- C7: `drawPixel` with x or y outside [0, 8) returns without touching the
framebuffer, for every column count, rotation setting and word. -/
theorem drawPixel_oob_noop (cols rotation : Nat) (fb : Nat → Nat)
    (x y : Int) (w : Nat) (h : x < 0 ∨ 8 ≤ x ∨ y < 0 ∨ 8 ≤ y) :
    drawPixel cols rotation fb x y w = fb := by
  rw [drawPixel]
  by_cases hy : y < 0 ∨ 8 ≤ y
  · rw [if_pos hy]
  · rw [if_neg hy, if_pos (by omega)]

theorem drawPixel_oob_noop_witness :
    drawPixel 8 0 (fun _ => 0) 9 0 5 = (fun _ => 0) :=
  drawPixel_oob_noop 8 0 (fun _ => 0) 9 0 5 (by decide)

/-- C10's counterexample input: on a 9×7 matrix (63 cells, `rows*cols < 64`)
no in-bounds plot reaches index 63 or beyond — the store index
`y*cols + x` is at most `7*7 + 7 = 56`. -/
theorem drawPixel_oob_write_counterexample :
    ¬ ∃ x : Nat, x < 8 ∧ ∃ y : Nat, y < 8 ∧
      63 ≤ drawIdx 0 (x : Int) (y : Int) 7 := by
  decide

/-- C10 (amended): for every matrix with `rows ≤ 8` and `rows*cols < 64`
there are coordinates inside the hard-coded 8×8 window whose plot passes the
bounds check and stores at index `y*cols + x ≥ rows*cols`, past the end of
the `rows*cols`-cell framebuffer. -/
theorem drawPixel_oob_write_amended (rows cols : Nat)
    (hrows : rows ≤ 8) (hsize : rows * cols < 64) :
    ∃ x : Nat, x < 8 ∧ ∃ y : Nat, y < 8 ∧ rows * cols ≤ y * cols + x ∧
      ∀ (fb : Nat → Nat) (w : Nat),
        drawPixel cols 0 fb (x : Int) (y : Int) w =
          Function.update fb (y * cols + x) w := by
  refine ⟨7, by omega, 7, by omega, ?_, ?_⟩
  · interval_cases rows <;> omega
  · intro fb w
    rw [drawPixel_in_bounds (by omega) (by omega)]
    rfl

theorem drawPixel_oob_write_witness :
    ∃ x : Nat, x < 8 ∧ ∃ y : Nat, y < 8 ∧ 4 * 4 ≤ y * 4 + x ∧
      ∀ (fb : Nat → Nat) (w : Nat),
        drawPixel 4 0 fb (x : Int) (y : Int) w =
          Function.update fb (y * 4 + x) w :=
  drawPixel_oob_write_amended 4 4 (by decide) (by decide)

/-! ## clear -/

lemma clearLoop_16x16_none :
    ∀ (fuel i : Nat) (fb : Nat → Nat), i < 256 →
      clearLoop 16 16 fuel fb i = none := by
  intro fuel
  induction fuel with
  | zero => intro i fb _; rfl
  | succ fuel ih =>
    intro i fb hi
    rw [clearLoop, if_pos (by omega)]
    exact ih _ _ (Nat.mod_lt _ (by omega))

/-- C8: on a 16×16 matrix the `clear` loop never terminates — its `uint8_t`
counter wraps from 255 back to 0 below the bound `rows*cols = 256`, so no
amount of fuel completes the loop. -/
theorem clear_16x16_diverges : ∀ (fuel : Nat) (fb : Nat → Nat),
    clear 16 16 fb fuel = none := by
  intro fuel fb
  exact clearLoop_16x16_none fuel 0 fb (by omega)

/-! ## begin -/

/-- C9's counterexample input: with 2 colors and 1 column (`colors*cols = 2`
column pins), `begin` never configures column pin `COL_PINS[1]` — its
initialization loop stops at `_num_cols`. -/
theorem begin_cols_init_counterexample :
    Ev.pinMode (cfg9.colPins 1) ∉ beginEvents cfg9 := by decide

/-- C9 (amended): `begin` configures the first `cols` column pins
(`col_pins[0 .. _num_cols)`) as OUTPUT and drives each LOW before the timer
is installed and started; this covers all `colors * cols` column pins only
when `colors = 1`. -/
theorem begin_cols_init_amended (cfg : Cfg) :
    ∃ pre, beginEvents cfg =
        pre ++ [Ev.initTimer (DirectMatrix_ISR_FREQ cfg 0), Ev.attachISR] ∧
      ∀ i, i < cfg.cols →
        Ev.pinMode (cfg.colPins i) ∈ pre ∧ Ev.write (cfg.colPins i) false ∈ pre := by
  refine ⟨rowsInit cfg ++ colsInit cfg ++ srPreclock cfg, ?_, ?_⟩
  · simp [beginEvents, List.append_assoc]
  · intro i hi
    have hmem : ∀ e, e ∈ colsInit cfg →
        e ∈ rowsInit cfg ++ colsInit cfg ++ srPreclock cfg := by
      intro e he
      rw [List.append_assoc]
      exact List.mem_append_right _ (List.mem_append_left _ he)
    constructor <;>
      · apply hmem
        rw [colsInit, List.mem_flatMap]
        exact ⟨i, List.mem_range.mpr hi, by simp⟩

/-! ## Trace characterization of the ISR -/

/-- Every event of the color loop is a `digitalWrite` to a column pin with
index below `colors * cols`, or to a shift-register pin with index below
`colors + 2`. -/
lemma mem_colEmit {cfg : Cfg} {mat : Nat → Nat} {row pwm : Nat} {e : Ev}
    (he : e ∈ colEmit cfg mat row pwm) :
    (∃ j, j < cfg.colors * cfg.cols ∧ ∃ b, e = Ev.write (cfg.colPins j) b) ∨
    (∃ j, j < cfg.colors + 2 ∧ ∃ b, e = Ev.write (cfg.srPins j) b) := by
  rw [colEmit, List.mem_flatMap] at he
  obtain ⟨color, hcmem, he⟩ := he
  rw [List.mem_range] at hcmem
  rw [planeEvents] at he
  by_cases hsr : cfg.srPins color = cfg.dinv
  · rw [if_pos hsr, List.mem_map] at he
    obtain ⟨col, hcol, rfl⟩ := he
    rw [List.mem_range] at hcol
    left
    refine ⟨col + color * cfg.cols, ?_, _, rfl⟩
    calc col + color * cfg.cols < cfg.cols + color * cfg.cols := by omega
      _ = (color + 1) * cfg.cols := by ring
      _ ≤ cfg.colors * cfg.cols := Nat.mul_le_mul_right _ (by omega)
  · rw [if_neg hsr] at he
    right
    rcases List.mem_cons.mp he with rfl | he
    · exact ⟨color, by omega, _, rfl⟩
    rcases List.mem_append.mp he with he | he
    · rw [List.mem_flatMap] at he
      obtain ⟨col, _, he⟩ := he
      simp only [List.mem_cons, List.not_mem_nil, or_false] at he
      rcases he with rfl | rfl | rfl
      · exact ⟨CLK, by simp only [CLK]; omega, _, rfl⟩
      · exact ⟨DATA, by simp only [DATA]; omega, _, rfl⟩
      · exact ⟨CLK, by simp only [CLK]; omega, _, rfl⟩
    · simp only [List.mem_singleton] at he
      subst he
      exact ⟨color, by omega, _, rfl⟩

lemma colEmit_no_period (cfg : Cfg) (mat : Nat → Nat) (row pwm : Nat) :
    (colEmit cfg mat row pwm).filterMap periodOf = [] := by
  rw [List.filterMap_eq_nil_iff]
  intro e he
  rcases mem_colEmit he with ⟨j, _, b, rfl⟩ | ⟨j, _, b, rfl⟩ <;> rfl

/-- One ISR invocation calls `setPeriod` exactly when it starts a pass
(`row == 0`), and then exactly once, with `ISR_FREQ[isr_freq_offset]`. -/
lemma step_periods (cfg : Cfg) (mat : Nat → Nat) (s : RState) :
    (stepEvents cfg mat s).filterMap periodOf =
      if s.row = 0 then [DirectMatrix_ISR_FREQ cfg s.off] else [] := by
  by_cases h : s.row = 0 <;>
    simp [stepEvents, h, List.filterMap_append, List.filterMap_cons, periodOf,
      colEmit_no_period]

lemma runEvents_add (cfg : Cfg) (mat : Nat → Nat) : ∀ (m n : Nat) (s : RState),
    runEvents cfg mat s (m + n) =
      runEvents cfg mat s m ++ runEvents cfg mat (advIter cfg.rows m s) n := by
  intro m
  induction m with
  | zero => intro n s; rw [Nat.zero_add]; rfl
  | succ m ih =>
    intro n s
    rw [Nat.succ_add, runEvents, runEvents, advIter, ih n (advance cfg.rows s),
      List.append_assoc]

/-- Invocations that do not start a pass reprogram no period. -/
lemma run_no_period (cfg : Cfg) (mat : Nat → Nat) : ∀ (m : Nat) (s : RState),
    0 < s.row → s.row + m ≤ cfg.rows →
    (runEvents cfg mat s m).filterMap periodOf = [] := by
  intro m
  induction m with
  | zero => intro s _ _; rfl
  | succ m ih =>
    intro s hpos hle
    rw [runEvents, List.filterMap_append, step_periods, if_neg (by omega),
      List.nil_append]
    rcases Nat.lt_or_ge (s.row + 1) cfg.rows with h | h
    · rw [advance_no_wrap h]
      exact ih ⟨s.row + 1, s.pwm, s.off⟩ (by omega : 0 < s.row + 1)
        (by omega : s.row + 1 + m ≤ cfg.rows)
    · have hm : m = 0 := by omega
      subst hm; rfl

/-- One full pass from the start of a pass makes one `setPeriod` call. -/
lemma pass_periods (cfg : Cfg) (mat : Nat → Nat) (hR : 0 < cfg.rows)
    (p q : Nat) :
    (runEvents cfg mat ⟨0, p, q⟩ cfg.rows).filterMap periodOf =
      [DirectMatrix_ISR_FREQ cfg q] := by
  obtain ⟨n, hn⟩ : ∃ n, cfg.rows = n + 1 := ⟨cfg.rows - 1, by omega⟩
  rw [hn, runEvents, List.filterMap_append, step_periods, if_pos rfl]
  cases n with
  | zero => simp [runEvents]
  | succ n' =>
    have hadv : advance cfg.rows ⟨0, p, q⟩ = ⟨1, p, q⟩ :=
      advance_no_wrap (by omega : (0 : Nat) + 1 < cfg.rows)
    rw [hadv, run_no_period cfg mat (n' + 1) ⟨1, p, q⟩ (by omega : (0 : Nat) < 1)
      (by omega : 1 + (n' + 1) ≤ cfg.rows)]
    simp

lemma advIter_pass1 {rows : Nat} (hR : 0 < rows) :
    advIter rows rows state0 = ⟨0, 2, 1⟩ := by
  rw [show (state0 : RState) = ⟨0, 1, 0⟩ from rfl, advIter_full_pass hR, advance]
  have hw : rows - 1 + 1 ≥ rows := by omega
  norm_num [hw, DirectMatrix_PWM_LEVELS, Nat.shiftLeft_eq]

lemma advIter_pass2 {rows : Nat} (hR : 0 < rows) :
    advIter rows rows (⟨0, 2, 1⟩ : RState) = ⟨0, 4, 2⟩ := by
  rw [advIter_full_pass hR, advance]
  have hw : rows - 1 + 1 ≥ rows := by omega
  norm_num [hw, DirectMatrix_PWM_LEVELS, Nat.shiftLeft_eq]

lemma advIter_pass3 {rows : Nat} (hR : 0 < rows) :
    advIter rows rows (⟨0, 4, 2⟩ : RState) = ⟨0, 8, 3⟩ := by
  rw [advIter_full_pass hR, advance]
  have hw : rows - 1 + 1 ≥ rows := by omega
  norm_num [hw, DirectMatrix_PWM_LEVELS, Nat.shiftLeft_eq]

/-- C1: the period schedule.  Per invocation, `setPeriod` is called exactly
when `current_row = 0`, once, with `T[p] = T[0] << p` for the pass number
`p = k / R`; over one complete frame the calls are exactly
`[T[0], T[1], T[2], T[3]]` in that order. -/
theorem period_schedule (cfg : Cfg) (mat : Nat → Nat) (hR : 0 < cfg.rows) :
    (∀ k, k < 4 * cfg.rows →
      (stepEvents cfg mat (stateN cfg.rows k)).filterMap periodOf =
        if (stateN cfg.rows k).row = 0
        then [DirectMatrix_ISR_FREQ cfg (k / cfg.rows)] else []) ∧
    (runEvents cfg mat state0 (4 * cfg.rows)).filterMap periodOf =
      [DirectMatrix_ISR_FREQ cfg 0, DirectMatrix_ISR_FREQ cfg 1,
       DirectMatrix_ISR_FREQ cfg 2, DirectMatrix_ISR_FREQ cfg 3] ∧
    (∀ p, p < 4 → DirectMatrix_ISR_FREQ cfg p =
      (DirectMatrix_ISR_FREQ cfg 0 <<< p) % 2 ^ 32) := by
  refine ⟨?_, ?_, ?_⟩
  · intro k hk
    have hdiv : k / cfg.rows < 4 := (Nat.div_lt_iff_lt_mul hR).mpr hk
    have hoff : (stateN cfg.rows k).off = k / cfg.rows := by
      rw [stateN_closed hR]
      exact Nat.mod_eq_of_lt hdiv
    rw [step_periods, hoff]
  · rw [show 4 * cfg.rows = cfg.rows + (cfg.rows + (cfg.rows + cfg.rows)) from by ring,
      runEvents_add, advIter_pass1 hR, runEvents_add, advIter_pass2 hR,
      runEvents_add, advIter_pass3 hR,
      List.filterMap_append, List.filterMap_append, List.filterMap_append,
      show state0 = (⟨0, 1, 0⟩ : RState) from rfl,
      pass_periods cfg mat hR, pass_periods cfg mat hR, pass_periods cfg mat hR,
      pass_periods cfg mat hR]
    rfl
  · intro p hp
    rw [DirectMatrix_ISR_FREQ, DirectMatrix_ISR_FREQ, Nat.shiftLeft_eq,
      Nat.shiftLeft_eq, Nat.shiftLeft_eq, Nat.pow_zero, Nat.mul_one,
      Nat.mod_mul_mod]

theorem period_schedule_witness :
    (∀ k, k < 4 * cfgW.rows →
      (stepEvents cfgW matW (stateN cfgW.rows k)).filterMap periodOf =
        if (stateN cfgW.rows k).row = 0
        then [DirectMatrix_ISR_FREQ cfgW (k / cfgW.rows)] else []) ∧
    (runEvents cfgW matW state0 (4 * cfgW.rows)).filterMap periodOf =
      [DirectMatrix_ISR_FREQ cfgW 0, DirectMatrix_ISR_FREQ cfgW 1,
       DirectMatrix_ISR_FREQ cfgW 2, DirectMatrix_ISR_FREQ cfgW 3] ∧
    (∀ p, p < 4 → DirectMatrix_ISR_FREQ cfgW p =
      (DirectMatrix_ISR_FREQ cfgW 0 <<< p) % 2 ^ 32) :=
  period_schedule cfgW matW (by decide)

/-! ## Row-enable counting -/

/-- One ISR invocation drives row pin `r` LOW exactly when it services
row `r`, and then exactly once. -/
lemma count_step (cfg : Cfg) (mat : Nat → Nat) {r : Nat} {s : RState}
    (hr : r < cfg.rows) (hrow : s.row < cfg.rows)
    (injRow : ∀ a, a < cfg.rows → ∀ b, b < cfg.rows →
      cfg.rowPins a = cfg.rowPins b → a = b)
    (rowCol : ∀ a, a < cfg.rows → ∀ b, b < cfg.colors * cfg.cols →
      cfg.rowPins a ≠ cfg.colPins b)
    (rowSr : ∀ a, a < cfg.rows → ∀ b, b < cfg.colors + 2 →
      cfg.rowPins a ≠ cfg.srPins b) :
    (stepEvents cfg mat s).count (Ev.write (cfg.rowPins r) false) =
      if s.row = r then 1 else 0 := by
  have hcol : (colEmit cfg mat s.row s.pwm).count (Ev.write (cfg.rowPins r) false)
      = 0 := by
    rw [List.count_eq_zero]
    intro hmem
    rcases mem_colEmit hmem with ⟨j, hj, b, hEq⟩ | ⟨j, hj, b, hEq⟩
    · simp only [Ev.write.injEq] at hEq
      exact rowCol r hr j hj hEq.1
    · simp only [Ev.write.injEq] at hEq
      exact rowSr r hr j hj hEq.1
  rw [stepEvents, List.count_append, List.count_append, List.count_cons, hcol,
    List.count_singleton]
  have hpre : List.count (Ev.write (cfg.rowPins r) false)
      (if s.row = 0 then [Ev.setPeriod (DirectMatrix_ISR_FREQ cfg s.off)] else [])
      = 0 := by
    split <;> simp
  have hb : (Ev.write (cfg.rowPins (oldrowOf cfg s)) true ==
      Ev.write (cfg.rowPins r) false) = false := by simp
  rw [hpre, hb]
  by_cases hsr : s.row = r
  · have he : (Ev.write (cfg.rowPins s.row) false ==
        Ev.write (cfg.rowPins r) false) = true := by simp [hsr]
    rw [he, if_pos hsr]
    simp
  · have hne : cfg.rowPins s.row ≠ cfg.rowPins r :=
      fun hEq => hsr (injRow _ hrow _ hr hEq)
    have he : (Ev.write (cfg.rowPins s.row) false ==
        Ev.write (cfg.rowPins r) false) = false := by simp [hne]
    rw [he, if_neg hsr]
    simp

/-- Row-enable count over a run that stays inside one pass. -/
lemma count_run_no_wrap (cfg : Cfg) (mat : Nat → Nat) {r : Nat}
    (hr : r < cfg.rows)
    (injRow : ∀ a, a < cfg.rows → ∀ b, b < cfg.rows →
      cfg.rowPins a = cfg.rowPins b → a = b)
    (rowCol : ∀ a, a < cfg.rows → ∀ b, b < cfg.colors * cfg.cols →
      cfg.rowPins a ≠ cfg.colPins b)
    (rowSr : ∀ a, a < cfg.rows → ∀ b, b < cfg.colors + 2 →
      cfg.rowPins a ≠ cfg.srPins b) :
    ∀ (m row pwm off : Nat), row + m ≤ cfg.rows →
      (runEvents cfg mat ⟨row, pwm, off⟩ m).count (Ev.write (cfg.rowPins r) false)
        = if row ≤ r ∧ r < row + m then 1 else 0 := by
  intro m
  induction m with
  | zero =>
    intro row pwm off _
    rw [show runEvents cfg mat ⟨row, pwm, off⟩ 0 = [] from rfl, List.count_nil,
      if_neg (by omega)]
  | succ m ih =>
    intro row pwm off hle
    rw [runEvents, List.count_append,
      count_step cfg mat hr (show row < cfg.rows by omega) injRow rowCol rowSr]
    dsimp only
    rcases Nat.lt_or_ge (row + 1) cfg.rows with h | h
    · rw [advance_no_wrap (show (⟨row, pwm, off⟩ : RState).row + 1 < cfg.rows from h)]
      dsimp only
      rw [ih (row + 1) pwm off (by omega)]
      by_cases hsr : row = r
      · rw [if_pos hsr, if_neg (by omega), if_pos (by omega)]
      · rw [if_neg hsr, Nat.zero_add,
          if_congr (show (row + 1 ≤ r ∧ r < row + 1 + m) ↔
            (row ≤ r ∧ r < row + (m + 1)) from by omega) rfl rfl]
    · have hm : m = 0 := by omega
      subst hm
      rw [show ∀ s, runEvents cfg mat s 0 = [] from fun _ => rfl, List.count_nil,
        Nat.add_zero]
      by_cases hsr : row = r
      · rw [if_pos hsr, if_pos (by omega)]
      · rw [if_neg hsr, if_neg (by omega)]

/-- Each pass enables each row exactly once. -/
lemma count_pass (cfg : Cfg) (mat : Nat → Nat) {r : Nat}
    (hr : r < cfg.rows)
    (injRow : ∀ a, a < cfg.rows → ∀ b, b < cfg.rows →
      cfg.rowPins a = cfg.rowPins b → a = b)
    (rowCol : ∀ a, a < cfg.rows → ∀ b, b < cfg.colors * cfg.cols →
      cfg.rowPins a ≠ cfg.colPins b)
    (rowSr : ∀ a, a < cfg.rows → ∀ b, b < cfg.colors + 2 →
      cfg.rowPins a ≠ cfg.srPins b)
    (p q : Nat) :
    (runEvents cfg mat ⟨0, p, q⟩ cfg.rows).count (Ev.write (cfg.rowPins r) false)
      = 1 := by
  rw [count_run_no_wrap cfg mat hr injRow rowCol rowSr cfg.rows 0 p q (by omega),
    if_pos (by omega)]

/-- C3: frame coverage.  Over one complete frame (4·R invocations from the
initial refresh state) each row is enabled exactly 4 times; pass `q` runs at
plane mask `2^q`, plane index `q`, and enables each row exactly once. -/
theorem frame_coverage (cfg : Cfg) (mat : Nat → Nat) (hR : 0 < cfg.rows)
    (injRow : ∀ a, a < cfg.rows → ∀ b, b < cfg.rows →
      cfg.rowPins a = cfg.rowPins b → a = b)
    (rowCol : ∀ a, a < cfg.rows → ∀ b, b < cfg.colors * cfg.cols →
      cfg.rowPins a ≠ cfg.colPins b)
    (rowSr : ∀ a, a < cfg.rows → ∀ b, b < cfg.colors + 2 →
      cfg.rowPins a ≠ cfg.srPins b) :
    ∀ r, r < cfg.rows →
      (runEvents cfg mat state0 (4 * cfg.rows)).count
        (Ev.write (cfg.rowPins r) false) = 4 ∧
      (∀ q, q < 4 →
        stateN cfg.rows (q * cfg.rows) = ⟨0, 2 ^ q, q⟩ ∧
        (runEvents cfg mat (stateN cfg.rows (q * cfg.rows)) cfg.rows).count
          (Ev.write (cfg.rowPins r) false) = 1) := by
  intro r hr
  constructor
  · rw [show 4 * cfg.rows = cfg.rows + (cfg.rows + (cfg.rows + cfg.rows)) from by ring,
      runEvents_add, advIter_pass1 hR, runEvents_add, advIter_pass2 hR,
      runEvents_add, advIter_pass3 hR,
      List.count_append, List.count_append, List.count_append,
      show state0 = (⟨0, 1, 0⟩ : RState) from rfl,
      count_pass cfg mat hr injRow rowCol rowSr,
      count_pass cfg mat hr injRow rowCol rowSr,
      count_pass cfg mat hr injRow rowCol rowSr,
      count_pass cfg mat hr injRow rowCol rowSr]
  · intro q hq
    have hstate : stateN cfg.rows (q * cfg.rows) = ⟨0, 2 ^ q, q⟩ := by
      rw [stateN_pass hR, Nat.mod_eq_of_lt hq]
    exact ⟨hstate, by
      rw [hstate]
      exact count_pass cfg mat hr injRow rowCol rowSr _ _⟩

theorem frame_coverage_witness :
    (runEvents cfgW matW state0 (4 * cfgW.rows)).count
      (Ev.write (cfgW.rowPins 1) false) = 4 ∧
    (∀ q, q < 4 →
      stateN cfgW.rows (q * cfgW.rows) = ⟨0, 2 ^ q, q⟩ ∧
      (runEvents cfgW matW (stateN cfgW.rows (q * cfgW.rows)) cfgW.rows).count
        (Ev.write (cfgW.rowPins 1) false) = 1) :=
  frame_coverage cfgW matW (by decide) (by decide) (by decide) (by decide) 1
    (by decide)

/-! ## BCM column emission -/

/-- C2: during an invocation servicing row `r` with plane mask `m`, for a
direct-drive plane `i` and column `c`, column pin `i*C + c` is written
exactly once, HIGH iff `cell[r, c] & (m << 4*i) ≠ 0`. -/
theorem bcm_column_emission (cfg : Cfg) (mat : Nat → Nat) (r m off i c : Nat)
    (hR : 0 < cfg.rows) (hr : r < cfg.rows)
    (hi : i < cfg.colors) (hc : c < cfg.cols)
    (hK : cfg.colors ≤ 4) (hm : m < 16)
    (hdirect : cfg.srPins i = cfg.dinv)
    (injCol : ∀ a, a < cfg.colors * cfg.cols → ∀ b, b < cfg.colors * cfg.cols →
      cfg.colPins a = cfg.colPins b → a = b)
    (rowCol : ∀ a, a < cfg.rows → ∀ b, b < cfg.colors * cfg.cols →
      cfg.rowPins a ≠ cfg.colPins b)
    (srCol : ∀ a, a < cfg.colors + 2 → ∀ b, b < cfg.colors * cfg.cols →
      cfg.srPins a ≠ cfg.colPins b) :
    Ev.write (cfg.colPins (i * cfg.cols + c))
        (cellLit mat cfg.cols r c (m <<< (4 * i))) ∈
      stepEvents cfg mat ⟨r, m, off⟩ ∧
    ∀ b, Ev.write (cfg.colPins (i * cfg.cols + c)) b ∈ stepEvents cfg mat ⟨r, m, off⟩ →
      b = cellLit mat cfg.cols r c (m <<< (4 * i)) := by
  have htgt : i * cfg.cols + c < cfg.colors * cfg.cols := by
    calc i * cfg.cols + c < i * cfg.cols + cfg.cols := by omega
      _ = (i + 1) * cfg.cols := by ring
      _ ≤ cfg.colors * cfg.cols := Nat.mul_le_mul_right _ (by omega)
  have hmask : (m <<< (4 * i)) % 2 ^ 16 = m <<< (4 * i) := by
    apply Nat.mod_eq_of_lt
    rw [Nat.shiftLeft_eq]
    calc m * 2 ^ (4 * i) < 16 * 2 ^ (4 * i) :=
          (Nat.mul_lt_mul_right (Nat.pos_pow_of_pos (4 * i) (by norm_num))).mpr hm
      _ ≤ 16 * 2 ^ 12 :=
          Nat.mul_le_mul_left _ (Nat.pow_le_pow_right (by norm_num) (by omega))
      _ = 2 ^ 16 := by norm_num
  have holdrow : oldrowOf cfg ⟨r, m, off⟩ < cfg.rows := by
    rw [oldrowOf]
    dsimp only
    split <;> omega
  constructor
  · show _ ∈ stepEvents cfg mat ⟨r, m, off⟩
    rw [stepEvents]
    apply List.mem_append_left
    apply List.mem_append_right
    apply List.mem_cons_of_mem
    show _ ∈ colEmit cfg mat r m
    rw [colEmit, List.mem_flatMap]
    refine ⟨i, List.mem_range.mpr hi, ?_⟩
    rw [planeEvents, if_pos hdirect, List.mem_map]
    refine ⟨c, List.mem_range.mpr hc, ?_⟩
    rw [hmask, Nat.add_comm c (i * cfg.cols)]
  · intro b hb
    rw [stepEvents] at hb
    dsimp only at hb
    rcases List.mem_append.mp hb with hb | hb
    swap
    · exfalso
      simp only [List.mem_singleton, Ev.write.injEq] at hb
      exact rowCol r hr _ htgt hb.1.symm
    rcases List.mem_append.mp hb with hb | hb
    · exfalso
      split at hb <;> simp at hb
    rcases List.mem_cons.mp hb with hb | hb
    · exfalso
      simp only [Ev.write.injEq] at hb
      exact rowCol _ holdrow _ htgt hb.1.symm
    rw [colEmit, List.mem_flatMap] at hb
    obtain ⟨color, hcolor, hb⟩ := hb
    rw [List.mem_range] at hcolor
    rw [planeEvents] at hb
    by_cases hsr : cfg.srPins color = cfg.dinv
    · rw [if_pos hsr, List.mem_map] at hb
      obtain ⟨col, hcol', hEq⟩ := hb
      rw [List.mem_range] at hcol'
      simp only [Ev.write.injEq] at hEq
      have hidx : col + color * cfg.cols = i * cfg.cols + c := by
        apply injCol _ ?_ _ htgt hEq.1
        calc col + color * cfg.cols < cfg.cols + color * cfg.cols := by omega
          _ = (color + 1) * cfg.cols := by ring
          _ ≤ cfg.colors * cfg.cols := Nat.mul_le_mul_right _ (by omega)
      have hcols : 0 < cfg.cols := by omega
      have hcolor_eq : color = i := by
        have h1 : (col + cfg.cols * color) / cfg.cols = color := by
          rw [Nat.add_mul_div_left _ _ hcols, Nat.div_eq_of_lt hcol', Nat.zero_add]
        have h2 : (c + cfg.cols * i) / cfg.cols = i := by
          rw [Nat.add_mul_div_left _ _ hcols, Nat.div_eq_of_lt hc, Nat.zero_add]
        rw [show col + color * cfg.cols = col + cfg.cols * color from by ring,
          show i * cfg.cols + c = c + cfg.cols * i from by ring] at hidx
        rw [← h1, ← h2, hidx]
      subst hcolor_eq
      have hcol_eq : col = c := by
        rw [Nat.add_comm (color * cfg.cols) c] at hidx
        exact Nat.add_right_cancel hidx
      subst hcol_eq
      rw [← hEq.2, hmask]
    · exfalso
      rw [if_neg hsr] at hb
      rcases List.mem_cons.mp hb with hb | hb
      · simp only [Ev.write.injEq] at hb
        exact srCol color (by omega) _ htgt hb.1.symm
      rcases List.mem_append.mp hb with hb | hb
      · rw [List.mem_flatMap] at hb
        obtain ⟨col, _, hb⟩ := hb
        simp only [List.mem_cons, List.not_mem_nil, or_false] at hb
        rcases hb with hb | hb | hb <;> simp only [Ev.write.injEq] at hb
        · exact srCol CLK (by simp only [CLK]; omega) _ htgt hb.1.symm
        · exact srCol DATA (by simp only [DATA]; omega) _ htgt hb.1.symm
        · exact srCol CLK (by simp only [CLK]; omega) _ htgt hb.1.symm
      · simp only [List.mem_singleton, Ev.write.injEq] at hb
        exact srCol color (by omega) _ htgt hb.1.symm

theorem bcm_column_emission_witness :
    Ev.write (cfgW.colPins (0 * cfgW.cols + 1))
        (cellLit matW cfgW.cols 1 1 (2 <<< (4 * 0))) ∈
      stepEvents cfgW matW ⟨1, 2, 1⟩ ∧
    ∀ b, Ev.write (cfgW.colPins (0 * cfgW.cols + 1)) b ∈
        stepEvents cfgW matW ⟨1, 2, 1⟩ →
      b = cellLit matW cfgW.cols 1 1 (2 <<< (4 * 0)) :=
  bcm_column_emission cfgW matW 1 2 1 0 1 (by decide) (by decide) (by decide)
    (by decide) (by decide) (by decide) (by decide) (by decide) (by decide)
    (by decide)

/-! ## Row exclusivity -/

lemma applyEvs_nil (L : Nat → Option Bool) : applyEvs L [] = L := rfl

lemma applyEvs_cons (L : Nat → Option Bool) (e : Ev) (evs : List Ev) :
    applyEvs L (e :: evs) = applyEvs (applyEv L e) evs := rfl

lemma applyEvs_append (L : Nat → Option Bool) (xs ys : List Ev) :
    applyEvs L (xs ++ ys) = applyEvs (applyEvs L xs) ys := by
  rw [applyEvs, applyEvs, applyEvs, List.foldl_append]

/-- An event that does not drive any row pin LOW. -/
def rowSafe (cfg : Cfg) (e : Ev) : Prop :=
  ∀ p, e = Ev.write p false → ∀ r, r < cfg.rows → p ≠ cfg.rowPins r

/-- No row pin is driven LOW. -/
def noneLow (cfg : Cfg) (L : Nat → Option Bool) : Prop :=
  ∀ r, r < cfg.rows → L (cfg.rowPins r) ≠ some false

lemma atMostOne_of_noneLow {cfg : Cfg} {L : Nat → Option Bool}
    (h : noneLow cfg L) : AtMostOneLow cfg L :=
  fun r1 h1 _ _ hl1 _ => absurd hl1 (h r1 h1)

lemma applyEv_noneLow {cfg : Cfg} {L : Nat → Option Bool} (h : noneLow cfg L)
    {e : Ev} (hs : rowSafe cfg e) : noneLow cfg (applyEv L e) := by
  intro r hr
  cases e with
  | write p b =>
    show Function.update L p (some b) (cfg.rowPins r) ≠ some false
    by_cases hp : cfg.rowPins r = p
    · cases b with
      | false => exact absurd hp.symm (hs p rfl r hr)
      | true => rw [hp, Function.update_same]; simp
    · rw [Function.update_noteq hp]
      exact h r hr
  | setPeriod us => exact h r hr
  | pinMode p => exact h r hr
  | initTimer us => exact h r hr
  | attachISR => exact h r hr

/-- A trace of row-safe events keeps every row pin out of the LOW state, at
every instant. -/
lemma prefOk_noneLow (cfg : Cfg) : ∀ (evs : List Ev) (L : Nat → Option Bool),
    noneLow cfg L → (∀ e, e ∈ evs → rowSafe cfg e) →
    PrefOk cfg L evs ∧ noneLow cfg (applyEvs L evs) := by
  intro evs
  induction evs with
  | nil => intro L h _; exact ⟨trivial, h⟩
  | cons e rest ih =>
    intro L h hsafe
    have h2 : noneLow cfg (applyEv L e) :=
      applyEv_noneLow h (hsafe e (List.mem_cons_self e rest))
    obtain ⟨hp, hn⟩ := ih (applyEv L e) h2
      (fun x hx => hsafe x (List.mem_cons_of_mem _ hx))
    exact ⟨⟨atMostOne_of_noneLow h2, hp⟩, hn⟩

lemma prefOk_append (cfg : Cfg) : ∀ (xs : List Ev) (L : Nat → Option Bool)
    (ys : List Ev),
    PrefOk cfg L (xs ++ ys) ↔ PrefOk cfg L xs ∧ PrefOk cfg (applyEvs L xs) ys := by
  intro xs
  induction xs with
  | nil => intro L ys; simp [PrefOk, applyEvs_nil]
  | cons e rest ih =>
    intro L ys
    rw [List.cons_append]
    show AtMostOneLow cfg (applyEv L e) ∧ PrefOk cfg (applyEv L e) (rest ++ ys) ↔ _
    rw [ih (applyEv L e) ys, applyEvs_cons, ← and_assoc]
    rfl

lemma applyEvs_no_write : ∀ (evs : List Ev) (L : Nat → Option Bool) (p : Nat),
    (∀ b, Ev.write p b ∉ evs) → applyEvs L evs p = L p := by
  intro evs
  induction evs with
  | nil => intro L p _; rfl
  | cons e rest ih =>
    intro L p h
    rw [applyEvs_cons, ih _ _ (fun b hb => h b (List.mem_cons_of_mem _ hb))]
    cases e with
    | write q b =>
      have hq : p ≠ q := fun hpq => h b (by rw [hpq]; exact List.mem_cons_self _ _)
      show Function.update L q (some b) p = L p
      rw [Function.update_noteq hq]
    | setPeriod us => rfl
    | pinMode q => rfl
    | initTimer us => rfl
    | attachISR => rfl

/-- If a trace writes HIGH to a pin and all its writes to that pin are HIGH,
the pin ends driven HIGH. -/
lemma applyEvs_write_true : ∀ (evs : List Ev) (L : Nat → Option Bool) (p : Nat),
    Ev.write p true ∈ evs → (∀ b, Ev.write p b ∈ evs → b = true) →
    applyEvs L evs p = some true := by
  intro evs
  induction evs with
  | nil => intro L p h _; exact absurd h (List.not_mem_nil _)
  | cons e rest ih =>
    intro L p h1 h2
    rw [applyEvs_cons]
    by_cases hm : Ev.write p true ∈ rest
    · exact ih _ _ hm (fun b hb => h2 b (List.mem_cons_of_mem _ hb))
    · have he : e = Ev.write p true := by
        rcases List.mem_cons.mp h1 with h | h
        · exact h.symm
        · exact absurd h hm
      subst he
      have hnr : ∀ b, Ev.write p b ∉ rest := by
        intro b hb
        have hbt := h2 b (List.mem_cons_of_mem _ hb)
        subst hbt
        exact hm hb
      rw [applyEvs_no_write rest _ p hnr]
      show Function.update L p (some true) p = some true
      exact Function.update_same _ _ _

/-- Every event of `begin` is a pin-mode, a HIGH write to a row pin, a LOW
write to one of the first `cols` column pins, a write to a shift-register
pin, or a timer call. -/
lemma mem_beginEvents {cfg : Cfg} {e : Ev} (he : e ∈ beginEvents cfg) :
    (∃ i, i < cfg.rows ∧
      (e = Ev.pinMode (cfg.rowPins i) ∨ e = Ev.write (cfg.rowPins i) true)) ∨
    (∃ i, i < cfg.cols ∧
      (e = Ev.pinMode (cfg.colPins i) ∨ e = Ev.write (cfg.colPins i) false)) ∨
    (∃ i, i < 3 ∧
      (e = Ev.pinMode (cfg.srPins i) ∨ ∃ b, e = Ev.write (cfg.srPins i) b)) ∨
    e = Ev.initTimer (DirectMatrix_ISR_FREQ cfg 0) ∨ e = Ev.attachISR := by
  rw [beginEvents] at he
  rcases List.mem_append.mp he with he | he
  swap
  · simp only [List.mem_cons, List.not_mem_nil, or_false] at he
    right; right; right; exact he
  rcases List.mem_append.mp he with he | he
  swap
  · right; right; left
    rw [srPreclock, List.mem_flatMap] at he
    obtain ⟨pin, hpin, he⟩ := he
    rw [List.mem_range] at hpin
    split at he
    · exact absurd he (List.not_mem_nil _)
    · rcases List.mem_append.mp he with he | he
      swap
      · simp only [List.mem_singleton] at he
        exact ⟨pin, hpin, Or.inr ⟨true, he⟩⟩
      rcases List.mem_append.mp he with he | he
      · simp only [List.mem_cons, List.not_mem_nil, or_false] at he
        rcases he with he | he | he | he
        · exact ⟨pin, hpin, Or.inl he⟩
        · exact ⟨DATA, by simp only [DATA]; omega, Or.inl he⟩
        · exact ⟨CLK, by simp only [CLK]; omega, Or.inl he⟩
        · exact ⟨pin, hpin, Or.inr ⟨false, he⟩⟩
      · rw [List.mem_flatMap] at he
        obtain ⟨j, _, he⟩ := he
        simp only [List.mem_cons, List.not_mem_nil, or_false] at he
        rcases he with he | he | he
        · exact ⟨CLK, by simp only [CLK]; omega, Or.inr ⟨false, he⟩⟩
        · exact ⟨DATA, by simp only [DATA]; omega, Or.inr ⟨_, he⟩⟩
        · exact ⟨CLK, by simp only [CLK]; omega, Or.inr ⟨true, he⟩⟩
  rcases List.mem_append.mp he with he | he
  · left
    rw [rowsInit, List.mem_flatMap] at he
    obtain ⟨i, hi, he⟩ := he
    rw [List.mem_range] at hi
    simp only [List.mem_cons, List.not_mem_nil, or_false] at he
    exact ⟨i, hi, he⟩
  · right; left
    rw [colsInit, List.mem_flatMap] at he
    obtain ⟨i, hi, he⟩ := he
    rw [List.mem_range] at hi
    simp only [List.mem_cons, List.not_mem_nil, or_false] at he
    exact ⟨i, hi, he⟩

/-- After `begin`, every row pin is driven HIGH (disabled), whatever the
pins' prior state. -/
lemma begin_rows_high (cfg : Cfg) (hK : 0 < cfg.colors)
    (rowCol : ∀ a, a < cfg.rows → ∀ b, b < cfg.colors * cfg.cols →
      cfg.rowPins a ≠ cfg.colPins b)
    (rowSr : ∀ a, a < cfg.rows → ∀ b, b < cfg.colors + 2 →
      cfg.rowPins a ≠ cfg.srPins b)
    (L : Nat → Option Bool) {r : Nat} (hr : r < cfg.rows) :
    applyEvs L (beginEvents cfg) (cfg.rowPins r) = some true := by
  apply applyEvs_write_true
  · rw [beginEvents]
    apply List.mem_append_left
    apply List.mem_append_left
    apply List.mem_append_left
    rw [rowsInit, List.mem_flatMap]
    exact ⟨r, List.mem_range.mpr hr, by simp⟩
  · intro b hb
    rcases mem_beginEvents hb with ⟨i, hi, h⟩ | ⟨i, hi, h⟩ | ⟨i, hi, h⟩ | h | h
    · rcases h with h | h
      · simp at h
      · simp only [Ev.write.injEq] at h
        exact h.2
    · rcases h with h | h
      · simp at h
      · simp only [Ev.write.injEq] at h
        exact absurd h.1
          (rowCol r hr i (lt_of_lt_of_le hi (Nat.le_mul_of_pos_left _ hK)))
    · rcases h with h | ⟨b2, h⟩
      · simp at h
      · simp only [Ev.write.injEq] at h
        exact absurd h.1 (rowSr r hr i (by omega))
    · simp at h
    · simp at h

lemma beginEvents_rowSafe (cfg : Cfg) (hK : 0 < cfg.colors)
    (rowCol : ∀ a, a < cfg.rows → ∀ b, b < cfg.colors * cfg.cols →
      cfg.rowPins a ≠ cfg.colPins b)
    (rowSr : ∀ a, a < cfg.rows → ∀ b, b < cfg.colors + 2 →
      cfg.rowPins a ≠ cfg.srPins b) :
    ∀ e, e ∈ beginEvents cfg → rowSafe cfg e := by
  intro e he p hep r hr
  subst hep
  rcases mem_beginEvents he with ⟨i, hi, h⟩ | ⟨i, hi, h⟩ | ⟨i, hi, h⟩ | h | h
  · rcases h with h | h
    · simp at h
    · simp only [Ev.write.injEq] at h
      exact absurd h.2 (by simp)
  · rcases h with h | h
    · simp at h
    · simp only [Ev.write.injEq] at h
      rw [h.1]
      intro hEq
      exact rowCol r hr i (lt_of_lt_of_le hi (Nat.le_mul_of_pos_left _ hK)) hEq.symm
  · rcases h with h | ⟨b2, h⟩
    · simp at h
    · simp only [Ev.write.injEq] at h
      rw [h.1]
      intro hEq
      exact rowSr r hr i (by omega) hEq.symm
  · simp at h
  · simp at h

lemma colEmit_rowSafe (cfg : Cfg) (mat : Nat → Nat) (row pwm : Nat)
    (rowCol : ∀ a, a < cfg.rows → ∀ b, b < cfg.colors * cfg.cols →
      cfg.rowPins a ≠ cfg.colPins b)
    (rowSr : ∀ a, a < cfg.rows → ∀ b, b < cfg.colors + 2 →
      cfg.rowPins a ≠ cfg.srPins b) :
    ∀ e, e ∈ colEmit cfg mat row pwm → rowSafe cfg e := by
  intro e he p hep r hr
  subst hep
  rcases mem_colEmit he with ⟨j, hj, b, h⟩ | ⟨j, hj, b, h⟩ <;>
    simp only [Ev.write.injEq] at h
  · rw [h.1]
    intro hEq
    exact rowCol r hr j hj hEq.symm
  · rw [h.1]
    intro hEq
    exact rowSr r hr j hj hEq.symm

/-- The ISR's inter-invocation invariant: the only row pin that may be
driven LOW is the previously serviced row (`oldrow` of the coming
invocation). -/
def rowInv (cfg : Cfg) (s : RState) (L : Nat → Option Bool) : Prop :=
  ∀ r, r < cfg.rows → L (cfg.rowPins r) = some false → r = oldrowOf cfg s

lemma atMostOne_of_rowInv {cfg : Cfg} {s : RState} {L : Nat → Option Bool}
    (h : rowInv cfg s L) : AtMostOneLow cfg L :=
  fun r1 h1 r2 h2 l1 l2 => (h r1 h1 l1).trans (h r2 h2 l2).symm

lemma advance_row_lt {rows : Nat} (hR : 0 < rows) (s : RState) :
    (advance rows s).row < rows := by
  by_cases h : s.row + 1 ≥ rows
  · rw [advance, if_pos h]
    dsimp only
    split
    · exact hR
    · exact hR
  · rw [advance_no_wrap (by omega)]
    dsimp only
    omega

lemma oldrow_advance {cfg : Cfg} (hR : 0 < cfg.rows) {s : RState}
    (hrow : s.row < cfg.rows) :
    oldrowOf cfg (advance cfg.rows s) = s.row := by
  by_cases h : s.row + 1 ≥ cfg.rows
  · rw [advance, if_pos h]
    dsimp only
    split
    · rw [oldrowOf]
      dsimp only
      rw [if_pos rfl]
      omega
    · rw [oldrowOf]
      dsimp only
      rw [if_pos rfl]
      omega
  · rw [advance_no_wrap (by omega), oldrowOf]
    dsimp only
    rw [if_neg (by omega)]
    omega

/-- One ISR invocation preserves exclusivity at every instant, and
re-establishes the invariant for the next invocation. -/
lemma step_prefOk (cfg : Cfg) (mat : Nat → Nat) {s : RState}
    {L : Nat → Option Bool} (hR : 0 < cfg.rows)
    (injRow : ∀ a, a < cfg.rows → ∀ b, b < cfg.rows →
      cfg.rowPins a = cfg.rowPins b → a = b)
    (rowCol : ∀ a, a < cfg.rows → ∀ b, b < cfg.colors * cfg.cols →
      cfg.rowPins a ≠ cfg.colPins b)
    (rowSr : ∀ a, a < cfg.rows → ∀ b, b < cfg.colors + 2 →
      cfg.rowPins a ≠ cfg.srPins b)
    (hrow : s.row < cfg.rows) (hinv : rowInv cfg s L) :
    PrefOk cfg L (stepEvents cfg mat s) ∧
      rowInv cfg (advance cfg.rows s) (applyEvs L (stepEvents cfg mat s)) := by
  have hL1 : applyEvs L
      (if s.row = 0 then [Ev.setPeriod (DirectMatrix_ISR_FREQ cfg s.off)] else [])
      = L := by
    split <;> rfl
  have hpreOk : PrefOk cfg L
      (if s.row = 0 then [Ev.setPeriod (DirectMatrix_ISR_FREQ cfg s.off)] else []) := by
    split
    · exact ⟨atMostOne_of_rowInv hinv, trivial⟩
    · trivial
  set L2 := applyEv L (Ev.write (cfg.rowPins (oldrowOf cfg s)) true) with hL2def
  have hL2none : noneLow cfg L2 := by
    intro r hr
    rw [hL2def]
    show Function.update L (cfg.rowPins (oldrowOf cfg s)) (some true)
        (cfg.rowPins r) ≠ some false
    by_cases hp : cfg.rowPins r = cfg.rowPins (oldrowOf cfg s)
    · rw [hp, Function.update_same]; simp
    · rw [Function.update_noteq hp]
      intro hlow
      exact hp (by rw [hinv r hr hlow])
  obtain ⟨hcolOk, hL3none⟩ := prefOk_noneLow cfg (colEmit cfg mat s.row s.pwm) L2
    hL2none (colEmit_rowSafe cfg mat s.row s.pwm rowCol rowSr)
  set L3 := applyEvs L2 (colEmit cfg mat s.row s.pwm) with hL3def
  set L4 := applyEv L3 (Ev.write (cfg.rowPins s.row) false) with hL4def
  have hL4inv : ∀ r, r < cfg.rows → L4 (cfg.rowPins r) = some false → r = s.row := by
    intro r hr hlow
    by_cases hp : cfg.rowPins r = cfg.rowPins s.row
    · exact injRow r hr s.row hrow hp
    · rw [hL4def, show applyEv L3 (Ev.write (cfg.rowPins s.row) false)
          (cfg.rowPins r) = L3 (cfg.rowPins r) from Function.update_noteq hp _ _]
        at hlow
      exact absurd hlow (hL3none r hr)
  have hL4atMost : AtMostOneLow cfg L4 := by
    intro r1 h1 r2 h2 l1 l2
    rw [hL4inv r1 h1 l1, hL4inv r2 h2 l2]
  constructor
  · rw [stepEvents, prefOk_append, prefOk_append]
    refine ⟨⟨hpreOk, ?_⟩, ?_⟩
    · rw [hL1]
      exact ⟨atMostOne_of_noneLow hL2none, hcolOk⟩
    · rw [applyEvs_append, hL1, applyEvs_cons]
      exact ⟨hL4atMost, trivial⟩
  · intro r hr hlow
    rw [oldrow_advance hR hrow]
    rw [stepEvents, applyEvs_append, applyEvs_append, hL1, applyEvs_cons,
      applyEvs_cons, applyEvs_nil] at hlow
    exact hL4inv r hr hlow

lemma run_prefOk (cfg : Cfg) (mat : Nat → Nat) (hR : 0 < cfg.rows)
    (injRow : ∀ a, a < cfg.rows → ∀ b, b < cfg.rows →
      cfg.rowPins a = cfg.rowPins b → a = b)
    (rowCol : ∀ a, a < cfg.rows → ∀ b, b < cfg.colors * cfg.cols →
      cfg.rowPins a ≠ cfg.colPins b)
    (rowSr : ∀ a, a < cfg.rows → ∀ b, b < cfg.colors + 2 →
      cfg.rowPins a ≠ cfg.srPins b) :
    ∀ (n : Nat) (s : RState) (L : Nat → Option Bool), s.row < cfg.rows →
      rowInv cfg s L → PrefOk cfg L (runEvents cfg mat s n) := by
  intro n
  induction n with
  | zero => intro s L _ _; trivial
  | succ n ih =>
    intro s L hrow hinv
    rw [runEvents, prefOk_append]
    obtain ⟨h1, h2⟩ := step_prefOk cfg mat hR injRow rowCol rowSr hrow hinv
    exact ⟨h1, ih _ _ (advance_row_lt hR s) h2⟩

/-- C5: row exclusivity.  Starting from undriven pins, `begin` leaves every
row pin HIGH; after each event of `begin` followed by any number of ISR
invocations at most one row pin is LOW; and each invocation's trace blanks
the previous row before the column writes and enables the current row only
after them, the middle events never touching a row pin. -/
theorem row_exclusivity (cfg : Cfg) (mat : Nat → Nat)
    (hR : 0 < cfg.rows) (hK : 0 < cfg.colors)
    (injRow : ∀ a, a < cfg.rows → ∀ b, b < cfg.rows →
      cfg.rowPins a = cfg.rowPins b → a = b)
    (rowCol : ∀ a, a < cfg.rows → ∀ b, b < cfg.colors * cfg.cols →
      cfg.rowPins a ≠ cfg.colPins b)
    (rowSr : ∀ a, a < cfg.rows → ∀ b, b < cfg.colors + 2 →
      cfg.rowPins a ≠ cfg.srPins b) :
    ∀ n : Nat,
      (∀ r, r < cfg.rows →
        applyEvs (fun _ => none) (beginEvents cfg) (cfg.rowPins r) = some true) ∧
      PrefOk cfg (fun _ => none) (beginEvents cfg ++ runEvents cfg mat state0 n) ∧
      (∀ s : RState,
        stepEvents cfg mat s =
          ((if s.row = 0 then [Ev.setPeriod (DirectMatrix_ISR_FREQ cfg s.off)]
              else []) ++
            Ev.write (cfg.rowPins (oldrowOf cfg s)) true ::
              colEmit cfg mat s.row s.pwm) ++
            [Ev.write (cfg.rowPins s.row) false] ∧
        ∀ e, e ∈ colEmit cfg mat s.row s.pwm → ∃ p b, e = Ev.write p b ∧
          ∀ r, r < cfg.rows → p ≠ cfg.rowPins r) := by
  intro n
  refine ⟨fun r hr => begin_rows_high cfg hK rowCol rowSr _ hr, ?_, ?_⟩
  · rw [prefOk_append]
    obtain ⟨hbOk, hbNone⟩ := prefOk_noneLow cfg (beginEvents cfg) (fun _ => none)
      (fun r hr => by simp) (beginEvents_rowSafe cfg hK rowCol rowSr)
    refine ⟨hbOk, ?_⟩
    apply run_prefOk cfg mat hR injRow rowCol rowSr n state0 _
      (show state0.row < cfg.rows from hR)
    intro r hr hlow
    exact absurd hlow (hbNone r hr)
  · intro s
    refine ⟨rfl, ?_⟩
    intro e he
    rcases mem_colEmit he with ⟨j, hj, b, rfl⟩ | ⟨j, hj, b, rfl⟩
    · exact ⟨_, b, rfl, fun r hr hEq => rowCol r hr j hj hEq.symm⟩
    · exact ⟨_, b, rfl, fun r hr hEq => rowSr r hr j hj hEq.symm⟩

theorem row_exclusivity_witness :
    (∀ r, r < cfgW.rows →
      applyEvs (fun _ => none) (beginEvents cfgW) (cfgW.rowPins r) = some true) ∧
    PrefOk cfgW (fun _ => none) (beginEvents cfgW ++ runEvents cfgW matW state0 9) ∧
    (∀ s : RState,
      stepEvents cfgW matW s =
        ((if s.row = 0 then [Ev.setPeriod (DirectMatrix_ISR_FREQ cfgW s.off)]
            else []) ++
          Ev.write (cfgW.rowPins (oldrowOf cfgW s)) true ::
            colEmit cfgW matW s.row s.pwm) ++
          [Ev.write (cfgW.rowPins s.row) false] ∧
      ∀ e, e ∈ colEmit cfgW matW s.row s.pwm → ∃ p b, e = Ev.write p b ∧
        ∀ r, r < cfgW.rows → p ≠ cfgW.rowPins r) :=
  row_exclusivity cfgW matW (by decide) (by decide) (by decide) (by decide)
    (by decide) 9

end LEDMatrix
